import Mathlib

/-!
Shallow embedding of `src/lazy_destruct.hpp`: a per-thread deferred-destruction
facility made of a fixed-capacity byte arena (`std::vector<std::byte> heap`),
a FIFO queue of pending entries (`std::queue<element_information> elements`),
and a generic value wrapper `lazy_destruct<T>` whose destructor hands the
value's byte image plus a type-specific deleter to the heap.

Modelling choices:
* raw bytes are `Nat` (the value of one `std::byte`); the arena is a
  `List Nat` whose length is the capacity (the C++ code checks against
  `std::size(heap)`, the vector's length — there is no separate capacity field);
* a deleter function pointer is identified by a `Nat` id; invoking a deleter
  is recorded as an `Invocation` carrying the deleter id and the bytes the
  deleter was given, so "callback runs" facts become list equalities;
* the FIFO queue is a `List element_information` with the queue's front at the
  head of the list (`emplace` appends at the tail, `pop` removes the head).
-/

/-- `deferred_heap::element_information`: size and deleter are set by the
caller (the slot destructor); `offset` is assigned inside `enqueue`. -/
structure element_information where
  size : Nat
  deleter : Nat
  offset : Nat
deriving DecidableEq

/-- A record of one deleter invocation: which deleter ran and the byte image
it was handed (`element` for the immediate fallback, arena bytes for dequeue). -/
structure Invocation where
  deleter : Nat
  bytes : List Nat
deriving DecidableEq

/-- The state of one thread's `deferred_heap`: the arena bytes (`heap`, the
`std::vector<std::byte>`) and the pending FIFO queue (`elements`). -/
structure deferred_heap where
  heap : List Nat
  elements : List element_information
deriving DecidableEq

/-- The arena capacity is the vector's length (`std::size(heap)`); the vector
is resized once in the constructor and never resized again. -/
def deferred_heap.capacity (h : deferred_heap) : Nat := h.heap.length

/-- Default capacity of the private constructor, `512UL`. -/
def deferred_heap.defaultCapacity : Nat := 512

/-- The private constructor `deferred_heap(std::size_t capacity = 512UL)`:
`heap.resize(capacity)` value-initialises `capacity` zero bytes; the queue
starts empty. -/
def deferred_heap.init (capacity : Nat) : deferred_heap :=
  ⟨List.replicate capacity 0, []⟩

/-- `deferred_heap::get()`: the `thread_local deferred_heap heap;` is
constructed with the default capacity on the calling thread's first use. -/
def deferred_heap.get : deferred_heap := deferred_heap.init deferred_heap.defaultCapacity

/-- The offset computation at the top of `enqueue`:
`elements.empty() ? 0 : elements.back().offset + elements.back().size`. -/
def deferred_heap.tailOff (els : List element_information) : Nat :=
  match els.getLast? with
  | none => 0
  | some e => e.offset + e.size

/-- `std::copy(element, element + size, std::begin(heap) + offset)`: overwrite
`src.length` bytes of the arena starting at `offset`. -/
def storeAt (heap : List Nat) (offset : Nat) (src : List Nat) : List Nat :=
  heap.take offset ++ src ++ heap.drop (offset + src.length)

/-- `deferred_heap::enqueue(element_information info, std::byte* element)`:
compute the offset from the queue's back; if `offset + size > std::size(heap)`
invoke the deleter immediately on the caller's bytes and return with the heap
untouched; otherwise copy `size` bytes into the arena and append the entry. -/
def deferred_heap.enqueue (h : deferred_heap) (size deleter : Nat)
    (element : List Nat) : deferred_heap × List Invocation :=
  let offset := deferred_heap.tailOff h.elements
  if offset + size > h.heap.length then
    (h, [⟨deleter, element⟩])
  else
    (⟨storeAt h.heap offset (element.take size),
      h.elements ++ [⟨size, deleter, offset⟩]⟩, [])

/-- `deferred_heap::dequeue()`: on an empty queue return `false` and do
nothing; otherwise invoke the head entry's deleter on the arena bytes at its
offset, pop it, and return `true`. -/
def deferred_heap.dequeue (h : deferred_heap) :
    deferred_heap × Bool × List Invocation :=
  match h.elements with
  | [] => (h, false, [])
  | e :: rest =>
      (⟨h.heap, rest⟩, true, [⟨e.deleter, (h.heap.drop e.offset).take e.size⟩])

lemma deferred_heap.dequeue_length (h : deferred_heap)
    (hq : (deferred_heap.dequeue h).2.1 = true) :
    (deferred_heap.dequeue h).1.elements.length < h.elements.length := by
  obtain ⟨hp, els⟩ := h
  cases els with
  | nil => simp [deferred_heap.dequeue] at hq
  | cons e rest => simp [deferred_heap.dequeue] at hq ⊢

/-- `deferred_heap::clear()`: `while (dequeue());` — dequeue until it reports
an empty queue, collecting the invocations in the order they happen. -/
def deferred_heap.clear (h : deferred_heap) : deferred_heap × List Invocation :=
  if hq : (deferred_heap.dequeue h).2.1 = true then
    let next := deferred_heap.clear (deferred_heap.dequeue h).1
    (next.1, (deferred_heap.dequeue h).2.2 ++ next.2)
  else
    (h, [])
termination_by h.elements.length
decreasing_by
  exact deferred_heap.dequeue_length h hq

/-- `~deferred_heap()` runs `clear()` (and then destroys the members, which
frees the arena; no deleter thereby runs beyond those `clear` ran). -/
def deferred_heap.destructor (h : deferred_heap) : deferred_heap × List Invocation :=
  deferred_heap.clear h

/-!
The `lazy_destruct<type>` wrapper. One Lean value of `TypeModel` stands for
one concrete instantiation `lazy_destruct<type>`: its `size` is
`sizeof(element_type)`, `trivDtor` is `std::is_trivially_destructible_v
<element_type>`, and `deleterId` identifies the one `constexpr` deleter lambda
of that instantiation (one function pointer per instantiation, so an
`Invocation` with this id is exactly one run of `~element_type()`).
`TCall` records direct calls into the wrapped type's own special member
functions made by the wrapper itself (the deferred destructor calls are
already visible as `Invocation`s at the heap level).
-/

/-- One instantiation `lazy_destruct<type>` of the wrapper template. -/
structure TypeModel where
  size : Nat
  trivDtor : Bool
  deleterId : Nat
deriving DecidableEq

/-- A `lazy_destruct` object: its inline storage
`std::byte value[sizeof(element_type)]`. -/
structure lazy_destruct where
  value : List Nat
deriving DecidableEq

/-- A direct call made by the wrapper into the wrapped type's own logic. -/
inductive TCall where
  | construct
  | moveConstructT
  | destruct
deriving DecidableEq

/-- The forwarding constructor: `new (value) element_type{ args... }`
placement-constructs the value in the inline storage; `ctorBytes` is the byte
image the wrapped type's constructor produces there. It never touches the
thread's heap. -/
def lazy_destruct.constructSlot (τ : TypeModel) (ctorBytes : List Nat) :
    lazy_destruct × List TCall :=
  (⟨ctorBytes.take τ.size⟩, [TCall.construct])

/-- The move constructor `lazy_destruct(lazy_destruct&& other) :
value{ std::move(other.value) }`: the destination's inline byte array is
initialised element-wise from the source's raw bytes; no member function of
`element_type` is called, and the source object is left byte-identical. -/
def lazy_destruct.moveConstruct (other : lazy_destruct) :
    lazy_destruct × List TCall :=
  (⟨other.value⟩, [])

/-- `~lazy_destruct()`: for a trivially destructible `element_type` the
destructor returns at once; otherwise it calls
`deferred_heap::get().enqueue({ sizeof(element_type), deleter }, value)`
on the calling thread's heap `h`. -/
def lazy_destruct.destroySlot (τ : TypeModel) (s : lazy_destruct)
    (h : deferred_heap) : deferred_heap × List Invocation :=
  if τ.trivDtor then (h, [])
  else deferred_heap.enqueue h τ.size τ.deleterId s.value

/-- Destroy a sequence of slots on one thread, oldest first, threading the
thread's heap through and collecting every immediate deleter invocation. -/
def destroyAll : deferred_heap → List (TypeModel × lazy_destruct) →
    deferred_heap × List Invocation
  | h, [] => (h, [])
  | h, p :: rest =>
      let r1 := lazy_destruct.destroySlot p.1 p.2 h
      let r2 := destroyAll r1.1 rest
      (r2.1, r1.2 ++ r2.2)

/-- Number of invocations of the deleter `d` in a trace. -/
def invCount (d : Nat) (invs : List Invocation) : Nat :=
  invs.countP (fun i => i.deleter == d)

/-! ### Basic lemmas about the heap operations -/

lemma storeAt_length (heap : List Nat) (offset : Nat) (src : List Nat)
    (hle : offset + src.length ≤ heap.length) :
    (storeAt heap offset src).length = heap.length := by
  simp [storeAt]
  omega

lemma deferred_heap.tailOff_concat (els : List element_information)
    (e : element_information) :
    deferred_heap.tailOff (els ++ [e]) = e.offset + e.size := by
  simp [deferred_heap.tailOff]

lemma deferred_heap.enqueue_success (h : deferred_heap) (size deleter : Nat)
    (element : List Nat)
    (hfit : deferred_heap.tailOff h.elements + size ≤ h.heap.length) :
    deferred_heap.enqueue h size deleter element =
      (⟨storeAt h.heap (deferred_heap.tailOff h.elements) (element.take size),
        h.elements ++ [⟨size, deleter, deferred_heap.tailOff h.elements⟩]⟩,
       []) := by
  simp only [deferred_heap.enqueue]
  rw [if_neg (by omega)]

lemma deferred_heap.enqueue_overflow (h : deferred_heap) (size deleter : Nat)
    (element : List Nat)
    (hover : deferred_heap.tailOff h.elements + size > h.heap.length) :
    deferred_heap.enqueue h size deleter element = (h, [⟨deleter, element⟩]) := by
  simp only [deferred_heap.enqueue]
  rw [if_pos hover]

/-- Closed form for the `clear` loop: it empties the queue without touching
the arena and invokes each pending entry's deleter once, head first, on the
arena bytes at that entry's offset. -/
lemma deferred_heap.clear_spec (h : deferred_heap) :
    deferred_heap.clear h =
      (⟨h.heap, []⟩,
       h.elements.map (fun e => ⟨e.deleter, (h.heap.drop e.offset).take e.size⟩)) := by
  obtain ⟨hp, els⟩ := h
  induction els with
  | nil =>
      rw [deferred_heap.clear]
      simp [deferred_heap.dequeue]
  | cons e rest ih =>
      rw [deferred_heap.clear]
      simp [deferred_heap.dequeue, ih]

/-- Destroying a run of non-trivial slots whose sizes still fit after the
current tail offset defers every one of them: no deleter runs yet, the arena
length is unchanged, the tail offset advances by the total size, and the
queue gains the slots' deleters in destruction order. -/
lemma destroyAll_fits (slots : List (TypeModel × lazy_destruct)) :
    ∀ h : deferred_heap,
    (∀ p ∈ slots, p.1.trivDtor = false) →
    deferred_heap.tailOff h.elements + (slots.map fun p => p.1.size).sum ≤
      h.heap.length →
    (destroyAll h slots).2 = [] ∧
    (destroyAll h slots).1.heap.length = h.heap.length ∧
    deferred_heap.tailOff (destroyAll h slots).1.elements =
      deferred_heap.tailOff h.elements + (slots.map fun p => p.1.size).sum ∧
    (destroyAll h slots).1.elements.map element_information.deleter =
      h.elements.map element_information.deleter ++
        slots.map (fun p => p.1.deleterId) := by
  induction slots with
  | nil => intro h _ _; simp [destroyAll]
  | cons p rest ih =>
      intro h hnt hfit
      have hpnt : p.1.trivDtor = false := hnt p (by simp)
      have hfit1 : deferred_heap.tailOff h.elements + p.1.size ≤ h.heap.length := by
        simp at hfit; omega
      have hstep : lazy_destruct.destroySlot p.1 p.2 h =
          (⟨storeAt h.heap (deferred_heap.tailOff h.elements)
              (p.2.value.take p.1.size),
            h.elements ++
              [⟨p.1.size, p.1.deleterId, deferred_heap.tailOff h.elements⟩]⟩,
           []) := by
        simp only [lazy_destruct.destroySlot, hpnt, Bool.false_eq_true,
          if_false]
        exact deferred_heap.enqueue_success h p.1.size p.1.deleterId
          p.2.value hfit1
      set h1 : deferred_heap :=
        ⟨storeAt h.heap (deferred_heap.tailOff h.elements)
            (p.2.value.take p.1.size),
          h.elements ++
            [⟨p.1.size, p.1.deleterId, deferred_heap.tailOff h.elements⟩]⟩ with hh1
      have hlen1 : h1.heap.length = h.heap.length := by
        rw [hh1]
        exact storeAt_length _ _ _ (by simp; omega)
      have htail1 : deferred_heap.tailOff h1.elements =
          deferred_heap.tailOff h.elements + p.1.size := by
        rw [hh1]
        simp [deferred_heap.tailOff_concat]
      have hrest := ih h1 (fun q hq => hnt q (by simp [hq]))
        (by rw [htail1, hlen1]; simp at hfit ⊢; omega)
      have hout : destroyAll h (p :: rest) = destroyAll h1 rest := by
        simp only [destroyAll, hstep]
        simp
      refine ⟨?_, ?_, ?_, ?_⟩
      · rw [hout]; exact hrest.1
      · rw [hout, hrest.2.1, hlen1]
      · rw [hout, hrest.2.2.1, htail1]; simp; omega
      · rw [hout, hrest.2.2.2, hh1]; simp

/-- Draining runs each pending entry's deleter once, so the number of runs of
a given deleter during `clear` is its number of pending entries. -/
lemma clear_countP (d : Nat) (h : deferred_heap) :
    ((deferred_heap.clear h).2).countP (fun i => i.deleter == d) =
      h.elements.countP (fun e => e.deleter == d) := by
  rw [deferred_heap.clear_spec]
  simp [List.countP_map]
  rfl

/-! ### Claims -/

/-- C2: when the computed offset plus the size exceeds the arena capacity,
`enqueue` invokes the deleter immediately and synchronously on the
caller-supplied source bytes, leaves the pending-entry count unchanged, and
writes no bytes into the arena (the whole heap state is returned untouched). -/
theorem claim_C2_overflow_immediate
    (h : deferred_heap) (size deleter : Nat) (element : List Nat)
    (hover : deferred_heap.tailOff h.elements + size > h.heap.length) :
    deferred_heap.enqueue h size deleter element = (h, [⟨deleter, element⟩]) ∧
    (deferred_heap.enqueue h size deleter element).1.elements.length =
      h.elements.length ∧
    (deferred_heap.enqueue h size deleter element).1.heap = h.heap := by
  have he := deferred_heap.enqueue_overflow h size deleter element hover
  exact ⟨he, by rw [he], by rw [he]⟩

theorem claim_C2_witness :
    deferred_heap.enqueue (deferred_heap.init 2) 3 7 [1, 2, 3] =
      (deferred_heap.init 2, [⟨7, [1, 2, 3]⟩]) :=
  (claim_C2_overflow_immediate (deferred_heap.init 2) 3 7 [1, 2, 3]
    (by decide)).1

/-- C4: `dequeue` returns `false` iff the pending queue is empty, in which
case it changes nothing; when it returns `true` it removes exactly the head
entry and invokes that entry's deleter once, on the arena bytes at the
entry's offset. -/
theorem claim_C4_dequeue_contract (h : deferred_heap) :
    ((deferred_heap.dequeue h).2.1 = false ↔ h.elements = []) ∧
    (h.elements = [] → deferred_heap.dequeue h = (h, false, [])) ∧
    (∀ e rest, h.elements = e :: rest →
      deferred_heap.dequeue h =
        (⟨h.heap, rest⟩, true,
         [⟨e.deleter, (h.heap.drop e.offset).take e.size⟩])) := by
  obtain ⟨hp, els⟩ := h
  cases els with
  | nil => refine ⟨by simp [deferred_heap.dequeue], ?_, ?_⟩ <;>
      simp [deferred_heap.dequeue]
  | cons e rest => refine ⟨by simp [deferred_heap.dequeue], ?_, ?_⟩ <;>
      simp [deferred_heap.dequeue]

theorem claim_C4_witness :
    deferred_heap.dequeue ⟨[9, 9], [⟨1, 5, 0⟩]⟩ =
      (⟨[9, 9], []⟩, true, [⟨5, [9]⟩]) ∧
    (deferred_heap.dequeue ⟨[9, 9], ([] : List element_information)⟩).2.1 =
      false :=
  ⟨(claim_C4_dequeue_contract ⟨[9, 9], [⟨1, 5, 0⟩]⟩).2.2 ⟨1, 5, 0⟩ [] rfl,
   (claim_C4_dequeue_contract ⟨[9, 9], []⟩).1.mpr rfl⟩

/-- C5: destroying a heap instance is exactly a drain: the destructor runs
`clear`, which invokes every pending entry's deleter once, in FIFO order, on
the arena bytes of that entry, and leaves the queue empty — no enqueued
cleanup work is leaked. -/
theorem claim_C5_destructor_drains (h : deferred_heap) :
    deferred_heap.destructor h = deferred_heap.clear h ∧
    (deferred_heap.destructor h).1.elements = [] ∧
    (deferred_heap.destructor h).2 =
      h.elements.map
        (fun e => ⟨e.deleter, (h.heap.drop e.offset).take e.size⟩) := by
  refine ⟨rfl, ?_, ?_⟩ <;>
    simp [deferred_heap.destructor, deferred_heap.clear_spec]

/-- C7: a slot wrapping a trivially destructible type never creates a pending
entry: across its construction and destruction the thread heap — pending
count and arena alike — is byte-for-byte unchanged, and no deleter runs. -/
theorem claim_C7_trivial_noop (τ : TypeModel) (ctorBytes : List Nat)
    (h : deferred_heap) (htriv : τ.trivDtor = true) :
    lazy_destruct.destroySlot τ (lazy_destruct.constructSlot τ ctorBytes).1 h =
      (h, []) ∧
    (lazy_destruct.destroySlot τ
        (lazy_destruct.constructSlot τ ctorBytes).1 h).1.elements.length =
      h.elements.length ∧
    (lazy_destruct.destroySlot τ
        (lazy_destruct.constructSlot τ ctorBytes).1 h).1.heap = h.heap := by
  refine ⟨?_, ?_, ?_⟩ <;> simp [lazy_destruct.destroySlot, htriv]

theorem claim_C7_witness :
    lazy_destruct.destroySlot ⟨4, true, 3⟩
        (lazy_destruct.constructSlot ⟨4, true, 3⟩ [1, 2, 3, 4]).1
        (deferred_heap.init 8) =
      (deferred_heap.init 8, []) :=
  (claim_C7_trivial_noop ⟨4, true, 3⟩ [1, 2, 3, 4] (deferred_heap.init 8)
    rfl).1

/-- C8: a thread's heap is constructed by `get()` with the default capacity of
512 bytes on first use; the (private) constructor's optional capacity
parameter fixes the capacity at construction, and no subsequent operation —
enqueue, dequeue or clear — ever changes it. -/
theorem claim_C8_capacity_fixed :
    deferred_heap.get = deferred_heap.init 512 ∧
    (∀ c, (deferred_heap.init c).capacity = c) ∧
    (∀ h size deleter element,
      (deferred_heap.enqueue h size deleter element).1.capacity = h.capacity) ∧
    (∀ h, (deferred_heap.dequeue h).1.capacity = h.capacity) ∧
    (∀ h, (deferred_heap.clear h).1.capacity = h.capacity) := by
  refine ⟨rfl, ?_, ?_, ?_, ?_⟩
  · intro c; simp [deferred_heap.init, deferred_heap.capacity]
  · intro h size deleter element
    simp only [deferred_heap.enqueue]
    split
    · rfl
    · simp only [deferred_heap.capacity]
      exact storeAt_length _ _ _ (by simp; omega)
  · intro h
    obtain ⟨hp, els⟩ := h
    cases els <;> simp [deferred_heap.dequeue, deferred_heap.capacity]
  · intro h
    simp [deferred_heap.clear_spec, deferred_heap.capacity]

/-- C9: move construction of a slot relocates the source slot's raw inline
bytes into the destination's inline storage and makes no call into the
wrapped type's own logic — in particular it does not run the wrapped type's
move constructor on the destination. -/
theorem claim_C9_move_relocates_bytes (s : lazy_destruct) :
    (lazy_destruct.moveConstruct s).1.value = s.value ∧
    (lazy_destruct.moveConstruct s).2 = [] :=
  ⟨rfl, rfl⟩

/-- C1: for a sequence of slot destructions on one thread whose cumulative
byte size fits within the heap's capacity, no deleter runs at destruction
time (so none runs before the drain), and draining then invokes each slot's
cleanup callback exactly once, in destruction (FIFO) order. -/
theorem claim_C1_fifo_exactly_once (cap : Nat)
    (slots : List (TypeModel × lazy_destruct))
    (hnt : ∀ p ∈ slots, p.1.trivDtor = false)
    (hfit : (slots.map fun p => p.1.size).sum ≤ cap) :
    (destroyAll (deferred_heap.init cap) slots).2 = [] ∧
    (deferred_heap.clear
        (destroyAll (deferred_heap.init cap) slots).1).2.map Invocation.deleter =
      slots.map (fun p => p.1.deleterId) ∧
    (deferred_heap.clear
        (destroyAll (deferred_heap.init cap) slots).1).1.elements = [] := by
  have h0 : deferred_heap.tailOff (deferred_heap.init cap).elements +
      (slots.map fun p => p.1.size).sum ≤ (deferred_heap.init cap).heap.length := by
    simp [deferred_heap.init, deferred_heap.tailOff]
    exact hfit
  have hfits := destroyAll_fits slots (deferred_heap.init cap) hnt h0
  refine ⟨hfits.1, ?_, ?_⟩
  · rw [deferred_heap.clear_spec]
    simp only [List.map_map]
    have := hfits.2.2.2
    simp only [deferred_heap.init, List.map_nil, List.nil_append] at this
    rw [show (Invocation.deleter ∘ fun e : element_information =>
        (⟨e.deleter, ((destroyAll (deferred_heap.init cap) slots).1.heap.drop
          e.offset).take e.size⟩ : Invocation)) = element_information.deleter
      from rfl]
    exact this
  · rw [deferred_heap.clear_spec]

theorem claim_C1_witness :
    (destroyAll (deferred_heap.init 8)
        [(⟨2, false, 1⟩, ⟨[5, 6]⟩), (⟨3, false, 2⟩, ⟨[7, 8, 9]⟩)]).2 = [] ∧
    (deferred_heap.clear
        (destroyAll (deferred_heap.init 8)
          [(⟨2, false, 1⟩, ⟨[5, 6]⟩), (⟨3, false, 2⟩, ⟨[7, 8, 9]⟩)]).1).2.map
        Invocation.deleter = [1, 2] ∧
    (deferred_heap.clear
        (destroyAll (deferred_heap.init 8)
          [(⟨2, false, 1⟩, ⟨[5, 6]⟩), (⟨3, false, 2⟩, ⟨[7, 8, 9]⟩)]).1).1.elements =
      [] :=
  claim_C1_fifo_exactly_once 8
    [(⟨2, false, 1⟩, ⟨[5, 6]⟩), (⟨3, false, 2⟩, ⟨[7, 8, 9]⟩)]
    (by decide) (by decide)

/-- C6: a successful `enqueue` assigns the entry the offset just past the
previous tail entry (`0` on an empty queue), copies exactly `size` bytes from
the source into the arena at that offset, appends the entry
`{size, offset, deleter}` at the tail of the queue, and runs no deleter. -/
theorem claim_C6_enqueue_success_shape (h : deferred_heap)
    (size deleter : Nat) (element : List Nat)
    (hfit : deferred_heap.tailOff h.elements + size ≤ h.heap.length)
    (hlen : element.length = size) :
    deferred_heap.enqueue h size deleter element =
      (⟨h.heap.take (deferred_heap.tailOff h.elements) ++ element ++
          h.heap.drop (deferred_heap.tailOff h.elements + size),
        h.elements ++ [⟨size, deleter, deferred_heap.tailOff h.elements⟩]⟩,
       []) ∧
    (h.elements = [] → deferred_heap.tailOff h.elements = 0) ∧
    (∀ l, h.elements.getLast? = some l →
      deferred_heap.tailOff h.elements = l.offset + l.size) := by
  subst hlen
  refine ⟨?_, ?_, ?_⟩
  · rw [deferred_heap.enqueue_success h element.length deleter element hfit]
    simp [storeAt]
  · intro hempty; simp [deferred_heap.tailOff, hempty]
  · intro l hlast; simp [deferred_heap.tailOff, hlast]

theorem claim_C6_witness :
    deferred_heap.enqueue ⟨[9, 9, 9, 9], [⟨1, 5, 0⟩]⟩ 2 6 [3, 4] =
      (⟨[9, 3, 4, 9], [⟨1, 5, 0⟩, ⟨2, 6, 1⟩]⟩, []) ∧
    deferred_heap.tailOff [⟨1, 5, 0⟩] = 0 + 1 :=
  ⟨(claim_C6_enqueue_success_shape ⟨[9, 9, 9, 9], [⟨1, 5, 0⟩]⟩ 2 6 [3, 4]
      (by decide) rfl).1,
   (claim_C6_enqueue_success_shape ⟨[9, 9, 9, 9], [⟨1, 5, 0⟩]⟩ 2 6 [3, 4]
      (by decide) rfl).2.2 ⟨1, 5, 0⟩ rfl⟩

/-- C3 counterexample: the claim says an arena offset range once assigned is
never assigned to a later entry, even after the earlier entry was dequeued.
On a capacity-8 heap, enqueue a 4-byte entry (it gets offset 0), dequeue it
(the queue is now empty), and enqueue another 4-byte entry: because the
offset is recomputed from the queue's back — `0` when the queue is empty —
the second entry is assigned offset 0 again, reusing the first entry's
range. -/
theorem claim_C3_counterexample :
    (deferred_heap.enqueue (deferred_heap.init 8) 4 1
        [10, 11, 12, 13]).1.elements.map element_information.offset = [0] ∧
    (deferred_heap.dequeue
        (deferred_heap.enqueue (deferred_heap.init 8) 4 1
          [10, 11, 12, 13]).1).1.elements = [] ∧
    (deferred_heap.enqueue
        (deferred_heap.dequeue
          (deferred_heap.enqueue (deferred_heap.init 8) 4 1
            [10, 11, 12, 13]).1).1 4 2
        [20, 21, 22, 23]).1.elements.map element_information.offset = [0] := by
  decide

/-- C3 (amended): while the pending queue stays nonempty, offsets only
increase — a successful enqueue places the new entry at the tail entry's
offset plus its size, past every range still enqueued; but once dequeuing has
emptied the queue, the next successful enqueue is assigned offset 0 again, so
the range of an already-dequeued entry can be reassigned. -/
theorem claim_C3_amended_offsets (h : deferred_heap) (size deleter : Nat)
    (element : List Nat)
    (hfit : deferred_heap.tailOff h.elements + size ≤ h.heap.length) :
    (∀ l, h.elements.getLast? = some l →
      (deferred_heap.enqueue h size deleter element).1.elements.getLast? =
        some ⟨size, deleter, l.offset + l.size⟩ ∧
      l.offset ≤ l.offset + l.size) ∧
    (h.elements = [] →
      (deferred_heap.enqueue h size deleter element).1.elements.getLast? =
        some ⟨size, deleter, 0⟩) := by
  rw [deferred_heap.enqueue_success h size deleter element hfit]
  constructor
  · intro l hlast
    constructor
    · simp [deferred_heap.tailOff, hlast]
    · exact Nat.le_add_right _ _
  · intro hempty
    simp [deferred_heap.tailOff, hempty]

/-- C10: for a non-trivially-destructible wrapped type, a moved-from slot's
destructor still enqueues (or, on capacity exhaustion, immediately runs) the
type's destructor — move construction leaves the source slot intact — so
move-constructing one slot from another and destroying both, then draining,
runs the type's destructor twice for the single value that was constructed
(assuming no other pending entry of this instantiation). -/
theorem claim_C10_moved_from_double_destroy (τ : TypeModel)
    (s : lazy_destruct) (h : deferred_heap) (hnt : τ.trivDtor = false)
    (hfresh : h.elements.countP (fun e => e.deleter == τ.deleterId) = 0) :
    (((lazy_destruct.destroySlot τ s h).2 = [⟨τ.deleterId, s.value⟩] ∧
        (lazy_destruct.destroySlot τ s h).1 = h) ∨
      ((lazy_destruct.destroySlot τ s h).2 = [] ∧
        (lazy_destruct.destroySlot τ s h).1.elements =
          h.elements ++
            [⟨τ.size, τ.deleterId, deferred_heap.tailOff h.elements⟩])) ∧
    invCount τ.deleterId
      ((lazy_destruct.destroySlot τ s h).2 ++
        (lazy_destruct.destroySlot τ (lazy_destruct.moveConstruct s).1
          (lazy_destruct.destroySlot τ s h).1).2 ++
        (deferred_heap.clear
          (lazy_destruct.destroySlot τ (lazy_destruct.moveConstruct s).1
            (lazy_destruct.destroySlot τ s h).1).1).2) = 2 := by
  have hds : ∀ (t : lazy_destruct) (g : deferred_heap),
      lazy_destruct.destroySlot τ t g =
        deferred_heap.enqueue g τ.size τ.deleterId t.value := by
    intro t g
    simp [lazy_destruct.destroySlot, hnt]
  have hmv : (lazy_destruct.moveConstruct s).1.value = s.value := rfl
  by_cases hov : deferred_heap.tailOff h.elements + τ.size > h.heap.length
  · -- no room: both destructions fall back to immediate cleanup
    have e1 : lazy_destruct.destroySlot τ s h = (h, [⟨τ.deleterId, s.value⟩]) := by
      rw [hds]
      exact deferred_heap.enqueue_overflow h τ.size τ.deleterId s.value hov
    have e2 : lazy_destruct.destroySlot τ (lazy_destruct.moveConstruct s).1 h =
        (h, [⟨τ.deleterId, s.value⟩]) := by
      rw [hds, hmv]
      exact deferred_heap.enqueue_overflow h τ.size τ.deleterId s.value hov
    refine ⟨Or.inl ⟨by rw [e1], by rw [e1]⟩, ?_⟩
    rw [e1]
    simp only [e2]
    simp [invCount, List.countP_append, clear_countP, hfresh]
  · -- the first destruction defers
    push_neg at hov
    have e1 : lazy_destruct.destroySlot τ s h =
        (⟨storeAt h.heap (deferred_heap.tailOff h.elements)
            (s.value.take τ.size),
          h.elements ++
            [⟨τ.size, τ.deleterId, deferred_heap.tailOff h.elements⟩]⟩, []) := by
      rw [hds]
      exact deferred_heap.enqueue_success h τ.size τ.deleterId s.value hov
    set hA : deferred_heap :=
      ⟨storeAt h.heap (deferred_heap.tailOff h.elements)
          (s.value.take τ.size),
        h.elements ++
          [⟨τ.size, τ.deleterId, deferred_heap.tailOff h.elements⟩]⟩ with hhA
    have hAcount : hA.elements.countP (fun e => e.deleter == τ.deleterId) = 1 := by
      rw [hhA]
      simp [List.countP_append, hfresh]
    refine ⟨Or.inr ⟨by rw [e1], by rw [e1]⟩, ?_⟩
    rw [e1]
    by_cases hov2 : deferred_heap.tailOff hA.elements + τ.size > hA.heap.length
    · -- the second destruction no longer fits: immediate fallback
      have e2 : lazy_destruct.destroySlot τ (lazy_destruct.moveConstruct s).1 hA =
          (hA, [⟨τ.deleterId, s.value⟩]) := by
        rw [hds, hmv]
        exact deferred_heap.enqueue_overflow hA τ.size τ.deleterId s.value hov2
      simp only [e2]
      simp [invCount, List.countP_append, clear_countP, hAcount]
    · -- the second destruction also defers
      push_neg at hov2
      have e2 : lazy_destruct.destroySlot τ (lazy_destruct.moveConstruct s).1 hA =
          (⟨storeAt hA.heap (deferred_heap.tailOff hA.elements)
              (s.value.take τ.size),
            hA.elements ++
              [⟨τ.size, τ.deleterId, deferred_heap.tailOff hA.elements⟩]⟩, []) := by
        rw [hds, hmv]
        exact deferred_heap.enqueue_success hA τ.size τ.deleterId s.value hov2
      simp only [e2]
      simp [invCount, List.countP_append, clear_countP, hAcount, hfresh]

theorem claim_C10_witness :
    invCount 5
      ((lazy_destruct.destroySlot ⟨2, false, 5⟩ ⟨[3, 4]⟩
          (deferred_heap.init 8)).2 ++
        (lazy_destruct.destroySlot ⟨2, false, 5⟩
          (lazy_destruct.moveConstruct ⟨[3, 4]⟩).1
          (lazy_destruct.destroySlot ⟨2, false, 5⟩ ⟨[3, 4]⟩
            (deferred_heap.init 8)).1).2 ++
        (deferred_heap.clear
          (lazy_destruct.destroySlot ⟨2, false, 5⟩
            (lazy_destruct.moveConstruct ⟨[3, 4]⟩).1
            (lazy_destruct.destroySlot ⟨2, false, 5⟩ ⟨[3, 4]⟩
              (deferred_heap.init 8)).1).1).2) = 2 :=
  (claim_C10_moved_from_double_destroy ⟨2, false, 5⟩ ⟨[3, 4]⟩
    (deferred_heap.init 8) rfl (by decide)).2

theorem claim_C3_amended_witness :
    (deferred_heap.enqueue ⟨[9, 9, 9, 9], [⟨1, 5, 0⟩]⟩ 2 6
        [3, 4]).1.elements.getLast? = some ⟨2, 6, 0 + 1⟩ ∧
    (deferred_heap.enqueue (deferred_heap.init 4) 2 6
        [3, 4]).1.elements.getLast? = some ⟨2, 6, 0⟩ :=
  ⟨((claim_C3_amended_offsets ⟨[9, 9, 9, 9], [⟨1, 5, 0⟩]⟩ 2 6 [3, 4]
      (by decide)).1 ⟨1, 5, 0⟩ rfl).1,
   (claim_C3_amended_offsets (deferred_heap.init 4) 2 6 [3, 4]
      (by decide)).2 rfl⟩
